import Mathlib

/-!
Shallow embedding of the fork-aware accounts store in `src/accounts_db.rs`
(crate root `src/main.rs`). Slots, account ids and balances are `u64` in the
source; the store only compares slots and copies balances (no arithmetic), so
they are embedded as `Nat`. The `VecDeque` of inflight updates is a `List`
with the front at the head, and the `DashMap` is an association list. Panics
(`unwrap` on caller-supplied data) are embedded as `Option`/`none`.
-/

namespace Smolchain

abbrev Slot := Nat
abbrev AccountId := Nat

/-- Rust: `GENESIS_SUPPLY` in `src/main.rs`. -/
def GENESIS_SUPPLY : Nat := 1000000

/-- Rust: `struct Account { pub balance: u64 }` in `src/main.rs`. -/
structure Account where
  balance : Nat
  deriving DecidableEq

/-- Rust: `Account::default()` (derived `Default`, `balance = 0`). -/
def defaultAccount : Account := { balance := 0 }

/-- Rust: `struct VersionedAccount` in `src/accounts_db.rs`. The `VecDeque`
`inflight_updates` is a list with the queue front at the head; `push_back`
is append at the tail. -/
structure VersionedAccount where
  finalized_acc : Option Account
  inflight_updates : List (Slot × Account)
  deriving DecidableEq

/-- Rust: `VersionedAccount::default()`. -/
def emptyVersionedAccount : VersionedAccount :=
  { finalized_acc := none, inflight_updates := [] }

/-- Rust: `VersionedAccount::get_account`. Iterates `inflight_updates.iter().rev()`
and returns the first entry whose slot is contained in `slots_to_include`,
falling back to `finalized_acc`. -/
def VersionedAccount.get_account (self : VersionedAccount) (slots_to_include : List Slot) :
    Option Account :=
  match self.inflight_updates.reverse.find? (fun p => slots_to_include.contains p.1) with
  | some p => some p.2
  | none => self.finalized_acc

/-- Rust: `self.inflight_updates.back_mut().unwrap()`, the handle returned by
`VersionedAccount::load_account`: the account together with the value of the
tail of its inflight queue (`none` embeds the panic on an empty queue, which
`load_account` never hits). -/
def VersionedAccount.backHandle (self : VersionedAccount) : Option (VersionedAccount × Account) :=
  match self.inflight_updates.getLast? with
  | some p => some (self, p.2)
  | none => none

/-- Rust: `VersionedAccount::load_account`. `slots_to_include.last().unwrap()`
panics on an empty slice, embedded as `none`. The first branch (`if` with an
empty body) keeps the account unchanged when the tail is already at the
current slot; otherwise the chosen source value is cloned and pushed at the
back; finally a handle to the back entry is returned. -/
def VersionedAccount.load_account (self : VersionedAccount) (slots_to_include : List Slot) :
    Option (VersionedAccount × Account) :=
  match slots_to_include.getLast? with
  | none => none
  | some current_slot =>
    if self.inflight_updates.getLast?.map Prod.fst = some current_slot then
      self.backHandle
    else
      match self.inflight_updates.reverse.find? (fun p => slots_to_include.contains p.1) with
      | some p =>
        VersionedAccount.backHandle
          { self with inflight_updates := self.inflight_updates ++ [(current_slot, p.2)] }
      | none =>
        match self.finalized_acc with
        | some fin =>
          VersionedAccount.backHandle
            { self with inflight_updates := self.inflight_updates ++ [(current_slot, fin)] }
        | none =>
          VersionedAccount.backHandle
            { self with
                inflight_updates := self.inflight_updates ++ [(current_slot, defaultAccount)] }

/-- Rust: `VersionedAccount::set_account`. If the last inflight entry exists and
its slot equals `slot`, its value is overwritten in place; otherwise
`(slot, account)` is pushed at the back. -/
def VersionedAccount.set_account (self : VersionedAccount) (account : Account) (slot : Slot) :
    VersionedAccount :=
  match self.inflight_updates.getLast? with
  | some last =>
    if last.1 = slot then
      { self with inflight_updates := self.inflight_updates.dropLast ++ [(last.1, account)] }
    else
      { self with inflight_updates := self.inflight_updates ++ [(slot, account)] }
  | none => { self with inflight_updates := self.inflight_updates ++ [(slot, account)] }

/-- Models a caller writing `v` through the `&mut Account` handle returned by
`VersionedAccount::load_account`, which points at the value of the last
inflight entry: that value is overwritten in place. -/
def VersionedAccount.mutateTail (self : VersionedAccount) (v : Account) : VersionedAccount :=
  match self.inflight_updates.getLast? with
  | some last =>
    { self with inflight_updates := self.inflight_updates.dropLast ++ [(last.1, v)] }
  | none => self

/-- Rust: `struct AccountsDb`. The `DashMap` is an association list (its
iteration order is irrelevant to every claim); the `AtomicU64` is a `Nat`. -/
structure AccountsDb where
  finalized_slot : Slot
  accounts : List (AccountId × VersionedAccount)
  deriving DecidableEq

/-- Rust: `AccountsDb::genesis_database`. -/
def AccountsDb.genesis_database : AccountsDb :=
  { finalized_slot := 0,
    accounts := [(0, { finalized_acc := some { balance := GENESIS_SUPPLY },
                       inflight_updates := [] })] }

/-- Rust: `DashMap::insert` — replaces the value if the key is present,
otherwise adds a new entry. -/
def insertAccount (l : List (AccountId × VersionedAccount)) (id : AccountId)
    (va : VersionedAccount) : List (AccountId × VersionedAccount) :=
  if l.any (fun p => decide (p.1 = id)) then
    l.map (fun p => if p.1 = id then (id, va) else p)
  else
    l ++ [(id, va)]

/-- Rust: `DashMap::contains_key`. -/
def AccountsDb.containsKey (self : AccountsDb) (id : AccountId) : Bool :=
  self.accounts.any (fun p => decide (p.1 = id))

/-- Rust: `DashMap::get`, used by `AccountsDb::get_versioned_account`. -/
def AccountsDb.lookupAccount (self : AccountsDb) (id : AccountId) : Option VersionedAccount :=
  (self.accounts.find? (fun p => decide (p.1 = id))).map Prod.snd

/-- Rust: `AccountsDb::initialize_empty_versioned_account` — an unconditional
`DashMap::insert` of a fresh empty `VersionedAccount`. -/
def AccountsDb.insertEmptyVersionedAccount (self : AccountsDb) (id : AccountId) : AccountsDb :=
  { self with accounts := insertAccount self.accounts id emptyVersionedAccount }

/-- The entry-creation step of `AccountsDb::load_versioned_accounts`
(lines 142-146): `if !self.accounts.contains_key(&account_id)
{ self.initialize_empty_versioned_account(account_id); }`. -/
def AccountsDb.ensureEntry (self : AccountsDb) (id : AccountId) : AccountsDb :=
  if self.containsKey id then self else self.insertEmptyVersionedAccount id

/-- Rust: `enum LoadError`. -/
inductive LoadError where
  | OneOrMoreAccountsLocked
  deriving DecidableEq

/-- Lock held on a map entry by callers other than the current one, plus the
handles the current call itself already holds (threaded separately). A
`DashMap::try_get` fails iff the entry is exclusively locked; a
`try_get_mut` fails iff the entry is locked at all. -/
inductive LockState where
  | unlocked
  | shared
  | exclusive
  deriving DecidableEq

/-- The read loop of `AccountsDb::load_versioned_accounts`: `try_get` on each
read id, failing fast on a locked entry. The `Absent` arm of the Rust match is
`unreachable!()` (the entry-creation phase ran first); it is embedded as the
same error. -/
def tryGetReads (db : AccountsDb) (locks : AccountId → LockState) :
    List AccountId → Except LoadError (List VersionedAccount)
  | [] => Except.ok []
  | id :: rest =>
    if locks id = LockState.exclusive then
      Except.error LoadError.OneOrMoreAccountsLocked
    else
      match db.lookupAccount id with
      | none => Except.error LoadError.OneOrMoreAccountsLocked
      | some va =>
        match tryGetReads db locks rest with
        | Except.error e => Except.error e
        | Except.ok vs => Except.ok (va :: vs)

/-- The write loop of `AccountsDb::load_versioned_accounts`: `try_get_mut` on
each write id. `held` is the set of ids on which this call already holds
handles (all read ids, plus the write ids acquired so far); `try_get_mut`
fails if the entry is locked by anyone, including this call itself. -/
def tryGetWrites (db : AccountsDb) (locks : AccountId → LockState) (held : List AccountId) :
    List AccountId → Except LoadError (List VersionedAccount)
  | [] => Except.ok []
  | id :: rest =>
    if locks id = LockState.unlocked ∧ held.contains id = false then
      match db.lookupAccount id with
      | none => Except.error LoadError.OneOrMoreAccountsLocked
      | some va =>
        match tryGetWrites db locks (held ++ [id]) rest with
        | Except.error e => Except.error e
        | Except.ok vs => Except.ok (va :: vs)
    else
      Except.error LoadError.OneOrMoreAccountsLocked

/-- Rust: `AccountsDb::load_versioned_accounts`. `locks` describes, per id, the
locks held by other callers for the duration of the call. Phase one inserts a
fresh empty `VersionedAccount` for every requested id not yet in the map;
phase two try-acquires the handles. The mutated store (phase one persists even
when phase two fails) is returned alongside the result; on success the handle
values are the looked-up accounts. -/
def AccountsDb.load_versioned_accounts (self : AccountsDb) (locks : AccountId → LockState)
    (read_account_ids write_account_ids : List AccountId) :
    Except LoadError (List VersionedAccount × List VersionedAccount) × AccountsDb :=
  let db := (read_account_ids ++ write_account_ids).foldl (fun d id => d.ensureEntry id) self
  let result :=
    match tryGetReads db locks read_account_ids with
    | Except.error e => Except.error e
    | Except.ok rs =>
      match tryGetWrites db locks read_account_ids write_account_ids with
      | Except.error e => Except.error e
      | Except.ok ws => Except.ok (rs, ws)
  (result, db)

/-- The per-account `while let Some(...) = inflight_updates.pop_front()` loop of
`AccountsDb::finalize`: entries with slot at most `tip` are popped, those whose
slot is in `slots` overwrite the finalized value as they go; the first entry
with slot above `tip` is pushed back at the front and the loop stops. -/
def finalizeInflight (tip : Slot) (slots : List Slot) :
    List (Slot × Account) → Option Account → List (Slot × Account) × Option Account
  | [], fin => ([], fin)
  | (s, a) :: rest, fin =>
    if s ≤ tip then
      if slots.contains s then
        finalizeInflight tip slots rest (some a)
      else
        finalizeInflight tip slots rest fin
    else
      ((s, a) :: rest, fin)

/-- The effect of `AccountsDb::finalize` on one `VersionedAccount`. -/
def VersionedAccount.finalizeOne (self : VersionedAccount) (tip : Slot) (slots : List Slot) :
    VersionedAccount :=
  let r := finalizeInflight tip slots self.inflight_updates self.finalized_acc
  { finalized_acc := r.2, inflight_updates := r.1 }

/-- Rust: `AccountsDb::finalize`. `slots.last().unwrap()` panics on an empty
slice, embedded as `none`; a tip at or below `finalized_slot` returns without
changing the store. -/
def AccountsDb.finalize (self : AccountsDb) (slots : List Slot) : Option AccountsDb :=
  match slots.getLast? with
  | none => none
  | some tip =>
    if tip ≤ self.finalized_slot then
      some self
    else
      some { finalized_slot := tip,
             accounts := self.accounts.map (fun p => (p.1, p.2.finalizeOne tip slots)) }

/-! ## Helper lemmas -/

theorem contains_true_iff {l : List Nat} {a : Nat} : l.contains a = true ↔ a ∈ l :=
  List.elem_iff

theorem mem_of_getLast? {α : Type} {l : List α} {a : α} (h : l.getLast? = some a) : a ∈ l := by
  obtain ⟨ys, rfl⟩ := List.getLast?_eq_some_iff.mp h
  simp

theorem some_or {α : Type} (a : α) (o : Option α) : (some a).or o = some a := rfl

/-- A reverse scan with `find?` returns the last matching element, i.e. the
last element of the filtered list. -/
theorem find?_reverse_eq_getLast?_filter {α : Type} (p : α → Bool) (l : List α) :
    l.reverse.find? p = (l.filter p).getLast? := by
  induction l with
  | nil => rfl
  | cons x xs ih =>
    rw [List.reverse_cons, List.find?_append, ih]
    cases hpx : p x
    · rw [List.find?_cons_of_neg _ (by simp [hpx])]
      simp [List.filter_cons, hpx, Option.or_none]
    · rw [List.find?_cons_of_pos _ hpx]
      have hstep : List.filter p (x :: xs) = x :: xs.filter p := by
        simp [List.filter_cons, hpx]
      rw [hstep]
      cases hfl : xs.filter p with
      | nil => simp
      | cons y ys =>
        rw [List.getLast?_cons_cons]
        cases hg : (y :: ys).getLast? with
        | none => exact absurd (List.getLast?_eq_none_iff.mp hg) (by simp)
        | some z => rfl

/-- `getLast?` of the filtered list, read off `VersionedAccount.get_account`. -/
theorem get_account_eq_filter (va : VersionedAccount) (ancestors : List Slot) :
    va.get_account ancestors =
      match (va.inflight_updates.filter (fun p => ancestors.contains p.1)).getLast? with
      | some p => some p.2
      | none => va.finalized_acc := by
  unfold VersionedAccount.get_account
  rw [find?_reverse_eq_getLast?_filter]

/-- Characterisation of the finalize pop-loop on a queue with strictly
increasing slots: the remaining queue is the entries above `tip`, and the
finalized value becomes the last entry at or below `tip` whose slot is in
`slots`, when there is one. -/
theorem finalizeInflight_eq (tip : Slot) (slots : List Slot) (l : List (Slot × Account))
    (fin : Option Account)
    (hs : List.Pairwise (fun q r => q.1 < r.1) l) :
    finalizeInflight tip slots l fin =
      (l.filter (fun p => decide (tip < p.1)),
       match (l.filter (fun p => slots.contains p.1 && decide (p.1 ≤ tip))).getLast? with
       | some q => some q.2
       | none => fin) := by
  induction l generalizing fin with
  | nil => rfl
  | cons x rest ih =>
    obtain ⟨hx, hrest⟩ := List.pairwise_cons.mp hs
    obtain ⟨s, a⟩ := x
    by_cases h1 : s ≤ tip
    · have hnot : ¬ tip < s := not_lt.mpr h1
      by_cases h2 : slots.contains s
      · have h2m : s ∈ slots := contains_true_iff.mp h2
        have hstep : finalizeInflight tip slots ((s, a) :: rest) fin =
            finalizeInflight tip slots rest (some a) := by
          simp only [finalizeInflight]
          rw [if_pos h1, if_pos h2]
        rw [hstep, ih _ hrest]
        have hf1 : ((s, a) :: rest).filter (fun p => decide (tip < p.1)) =
            rest.filter (fun p => decide (tip < p.1)) := by
          simp [List.filter_cons, hnot]
        have hf2 : ((s, a) :: rest).filter
              (fun p => slots.contains p.1 && decide (p.1 ≤ tip)) =
            (s, a) :: rest.filter (fun p => slots.contains p.1 && decide (p.1 ≤ tip)) := by
          simp [List.filter_cons, h1, h2m]
        rw [hf1, hf2]
        cases hr : rest.filter (fun p => slots.contains p.1 && decide (p.1 ≤ tip)) with
        | nil => simp
        | cons y ys =>
          rw [List.getLast?_cons_cons]
          cases hg : (y :: ys).getLast? with
          | none => exact absurd (List.getLast?_eq_none_iff.mp hg) (by simp)
          | some z => rfl
      · have h2m : s ∉ slots := fun hm => h2 (contains_true_iff.mpr hm)
        have hstep : finalizeInflight tip slots ((s, a) :: rest) fin =
            finalizeInflight tip slots rest fin := by
          simp only [finalizeInflight]
          rw [if_pos h1, if_neg h2]
        rw [hstep, ih _ hrest]
        have hf1 : ((s, a) :: rest).filter (fun p => decide (tip < p.1)) =
            rest.filter (fun p => decide (tip < p.1)) := by
          simp [List.filter_cons, hnot]
        have hf2 : ((s, a) :: rest).filter
              (fun p => slots.contains p.1 && decide (p.1 ≤ tip)) =
            rest.filter (fun p => slots.contains p.1 && decide (p.1 ≤ tip)) := by
          simp [List.filter_cons, h2m]
        rw [hf1, hf2]
    · have hlt : tip < s := not_le.mp h1
      have hstep : finalizeInflight tip slots ((s, a) :: rest) fin = ((s, a) :: rest, fin) := by
        simp only [finalizeInflight]
        rw [if_neg h1]
      rw [hstep]
      have hf1 : ((s, a) :: rest).filter (fun p => decide (tip < p.1)) = (s, a) :: rest := by
        apply List.filter_eq_self.mpr
        intro q hq
        rcases List.mem_cons.mp hq with h | h
        · subst h; simp [hlt]
        · have := hx q h
          simp only at this
          simp [Nat.lt_trans hlt this]
      have hf2 : ((s, a) :: rest).filter
            (fun p => slots.contains p.1 && decide (p.1 ≤ tip)) = [] := by
        apply List.filter_eq_nil_iff.mpr
        intro q hq
        rcases List.mem_cons.mp hq with h | h
        · subst h
          simp [Nat.not_le.mpr hlt]
        · have := hx q h
          simp only at this
          simp [Nat.not_le.mpr (Nat.lt_trans hlt this)]
      rw [hf1, hf2]
      rfl

theorem backHandle_concat (fin : Option Account) (l : List (Slot × Account)) (t : Slot)
    (x : Account) :
    VersionedAccount.backHandle { finalized_acc := fin, inflight_updates := l ++ [(t, x)] } =
      some ({ finalized_acc := fin, inflight_updates := l ++ [(t, x)] }, x) := by
  unfold VersionedAccount.backHandle
  rw [List.getLast?_concat]

/-- Keys are untouched by the per-entry `finalize` map, so lookups commute
with it. -/
theorem find?_map_value (l : List (AccountId × VersionedAccount))
    (f : AccountId × VersionedAccount → VersionedAccount) (id : AccountId) :
    (l.map (fun p => (p.1, f p))).find? (fun p => decide (p.1 = id)) =
      (l.find? (fun p => decide (p.1 = id))).map (fun p => (p.1, f p)) := by
  induction l with
  | nil => rfl
  | cons x xs ih =>
    by_cases h : x.1 = id
    · rw [List.map_cons, List.find?_cons_of_pos _ (by simp [h]),
        List.find?_cons_of_pos _ (by simp [h])]
      rfl
    · rw [List.map_cons, List.find?_cons_of_neg _ (by simp [h]),
        List.find?_cons_of_neg _ (by simp [h])]
      exact ih

theorem containsKey_eq_false_iff (db : AccountsDb) (id : AccountId) :
    db.containsKey id = false ↔ db.lookupAccount id = none := by
  unfold AccountsDb.containsKey AccountsDb.lookupAccount
  simp [List.any_eq_false, List.find?_eq_none]

theorem ensureEntry_lookup_absent (db : AccountsDb) (id : AccountId)
    (h : db.lookupAccount id = none) :
    (db.ensureEntry id).lookupAccount id = some emptyVersionedAccount := by
  have hc : db.containsKey id = false := (containsKey_eq_false_iff db id).mpr h
  unfold AccountsDb.ensureEntry
  rw [hc]
  simp only [Bool.false_eq_true, if_false]
  unfold AccountsDb.insertEmptyVersionedAccount insertAccount
  unfold AccountsDb.containsKey at hc
  rw [hc]
  simp only [Bool.false_eq_true, if_false]
  unfold AccountsDb.lookupAccount at h ⊢
  have hfind : List.find? (fun p => decide (p.1 = id)) db.accounts = none :=
    Option.map_eq_none'.mp h
  rw [List.find?_append, hfind, Option.none_or, List.find?_cons_of_pos _ (by simp)]
  rfl

theorem ensureEntry_lookup_other (db : AccountsDb) (id id' : AccountId) (h : id' ≠ id) :
    (db.ensureEntry id).lookupAccount id' = db.lookupAccount id' := by
  unfold AccountsDb.ensureEntry
  cases hc : db.containsKey id with
  | true => rfl
  | false =>
    simp only [Bool.false_eq_true, if_false]
    unfold AccountsDb.insertEmptyVersionedAccount insertAccount
    unfold AccountsDb.containsKey at hc
    rw [hc]
    simp only [Bool.false_eq_true, if_false]
    unfold AccountsDb.lookupAccount
    rw [List.find?_append, List.find?_cons_of_neg _ (by simp [Ne.symm h]), List.find?_nil,
      Option.or_none]

theorem ensureEntry_preserves (db : AccountsDb) (id id' : AccountId) (va : VersionedAccount)
    (h : db.lookupAccount id' = some va) :
    (db.ensureEntry id).lookupAccount id' = some va := by
  by_cases he : id' = id
  · subst he
    unfold AccountsDb.ensureEntry
    cases hc : db.containsKey id' with
    | true => exact h
    | false =>
      exact absurd ((containsKey_eq_false_iff db id').mp hc) (by rw [h]; exact fun hcon => Option.noConfusion hcon)
  · rw [ensureEntry_lookup_other db id id' he]
    exact h

theorem ensureFold_preserves (ids : List AccountId) (db : AccountsDb) (id : AccountId)
    (va : VersionedAccount) (h : db.lookupAccount id = some va) :
    (ids.foldl (fun d i => d.ensureEntry i) db).lookupAccount id = some va := by
  induction ids generalizing db with
  | nil => exact h
  | cons x xs ih =>
    rw [List.foldl_cons]
    exact ih _ (ensureEntry_preserves db x id va h)

theorem ensureFold_creates (ids : List AccountId) (db : AccountsDb) (id : AccountId)
    (hmem : id ∈ ids) (h : db.lookupAccount id = none) :
    (ids.foldl (fun d i => d.ensureEntry i) db).lookupAccount id =
      some emptyVersionedAccount := by
  induction ids generalizing db with
  | nil => cases hmem
  | cons x xs ih =>
    rw [List.foldl_cons]
    by_cases hx : id = x
    · subst hx
      exact ensureFold_preserves xs _ id emptyVersionedAccount (ensureEntry_lookup_absent db id h)
    · rcases List.mem_cons.mp hmem with h1 | h1
      · exact absurd h1 hx
      · have hstep : (db.ensureEntry x).lookupAccount id = none := by
          rw [ensureEntry_lookup_other db x id hx]
          exact h
        exact ih _ h1 hstep

/-- In a strictly increasing slot list, every element is at most the last. -/
theorem le_getLast_of_pairwise {l : List Slot} {t : Slot}
    (hp : List.Pairwise (fun a b => a < b) l) (hl : l.getLast? = some t) :
    ∀ s ∈ l, s ≤ t := by
  obtain ⟨ys, rfl⟩ := List.getLast?_eq_some_iff.mp hl
  rw [List.pairwise_append] at hp
  intro s hs
  rcases List.mem_append.mp hs with h | h
  · exact Nat.le_of_lt (hp.2.2 s h t (by simp))
  · have : s = t := by simpa using h
    subst this
    exact Nat.le_refl s

/-- A `get_account` scan hits the tail first when the tail slot is in the
ancestor list. -/
theorem get_account_of_tail (va : VersionedAccount) (ancestors : List Slot) (t : Slot)
    (a : Account) (hlast : va.inflight_updates.getLast? = some (t, a)) (hmem : t ∈ ancestors) :
    va.get_account ancestors = some a := by
  unfold VersionedAccount.get_account
  obtain ⟨ys, hys⟩ := List.getLast?_eq_some_iff.mp hlast
  rw [hys, List.reverse_concat]
  have hfind : List.find? (fun p : Slot × Account => ancestors.contains p.1)
      ((t, a) :: ys.reverse) = some (t, a) := by
    apply List.find?_cons_of_pos
    exact contains_true_iff.mpr hmem
  rw [hfind]

theorem containsKey_eq_true_iff (db : AccountsDb) (id : AccountId) :
    db.containsKey id = true ↔ (db.lookupAccount id).isSome = true := by
  constructor
  · intro h
    cases hl : db.lookupAccount id with
    | none =>
      rw [(containsKey_eq_false_iff db id).mpr hl] at h
      simp at h
    | some v => rfl
  · intro h
    cases hc : db.containsKey id with
    | false =>
      rw [(containsKey_eq_false_iff db id).mp hc] at h
      simp at h
    | true => rfl

theorem ensureEntry_of_present (db : AccountsDb) (id : AccountId)
    (h : (db.lookupAccount id).isSome = true) : db.ensureEntry id = db := by
  unfold AccountsDb.ensureEntry
  rw [(containsKey_eq_true_iff db id).mpr h, if_pos rfl]

theorem backHandle_concat_inv (fin0 : Option Account) (l : List (Slot × Account)) (t : Slot)
    (x : Account) (va' : VersionedAccount) (a : Account)
    (h : VersionedAccount.backHandle { finalized_acc := fin0, inflight_updates := l ++ [(t, x)] }
      = some (va', a)) :
    va'.inflight_updates.getLast? = some (t, a) ∧ va'.finalized_acc = fin0 := by
  rw [backHandle_concat] at h
  simp only [Option.some.injEq, Prod.mk.injEq] at h
  obtain ⟨h1, h2⟩ := h
  subst h1
  subst h2
  exact ⟨List.getLast?_concat _, rfl⟩

/-- After a successful `load_account`, the tail of the inflight queue carries
the returned value at the tip slot, and the finalized value is untouched. -/
theorem load_account_tail (va : VersionedAccount) (ancestors : List Slot) (t : Slot)
    (hA : ancestors.getLast? = some t) (va' : VersionedAccount) (a : Account)
    (h : va.load_account ancestors = some (va', a)) :
    va'.inflight_updates.getLast? = some (t, a) ∧ va'.finalized_acc = va.finalized_acc := by
  simp only [VersionedAccount.load_account, hA] at h
  by_cases hc : va.inflight_updates.getLast?.map Prod.fst = some t
  · rw [if_pos hc] at h
    cases hl : va.inflight_updates.getLast? with
    | none => rw [hl] at hc; simp at hc
    | some p =>
      rw [hl] at hc
      have hpt : p.1 = t := by simpa using hc
      simp only [VersionedAccount.backHandle, hl] at h
      simp only [Option.some.injEq, Prod.mk.injEq] at h
      obtain ⟨h1, h2⟩ := h
      subst h1
      subst h2
      refine ⟨?_, rfl⟩
      rw [hl, ← hpt]
  · rw [if_neg hc] at h
    cases hf : va.inflight_updates.reverse.find? (fun p => ancestors.contains p.1) with
    | some p =>
      rw [hf] at h
      exact backHandle_concat_inv va.finalized_acc _ t p.2 va' a h
    | none =>
      rw [hf] at h
      cases hfin : va.finalized_acc with
      | some f =>
        rw [hfin] at h
        have hr := backHandle_concat_inv (some f) _ t f va' a h
        exact hr
      | none =>
        rw [hfin] at h
        have hr := backHandle_concat_inv none _ t defaultAccount va' a h
        exact hr

/-! ## Claim theorems -/

/-- C1: `get_account(ancestors)` returns the value of the most recently
appended inflight entry whose slot is contained in `ancestors` (the last
matching entry of the queue); if no inflight entry matches it returns the
finalized value; and if that is absent too it returns absent. -/
theorem claim1_get_account_returns_latest_matching (va : VersionedAccount)
    (ancestors : List Slot) :
    (va.get_account ancestors =
      match (va.inflight_updates.filter (fun p => ancestors.contains p.1)).getLast? with
      | some p => some p.2
      | none => va.finalized_acc) ∧
    ((∀ p ∈ va.inflight_updates, p.1 ∉ ancestors) →
      va.get_account ancestors = va.finalized_acc) ∧
    ((∀ p ∈ va.inflight_updates, p.1 ∉ ancestors) → va.finalized_acc = none →
      va.get_account ancestors = none) := by
  have hbase := get_account_eq_filter va ancestors
  have hnil : (∀ p ∈ va.inflight_updates, p.1 ∉ ancestors) →
      va.inflight_updates.filter (fun p => ancestors.contains p.1) = [] := by
    intro hnone
    apply List.filter_eq_nil_iff.mpr
    intro p hp
    simp only [contains_true_iff]
    exact hnone p hp
  refine ⟨hbase, ?_, ?_⟩
  · intro hnone
    rw [hbase, hnil hnone]
    rfl
  · intro hnone hfin
    rw [hbase, hnil hnone]
    exact hfin

/-- Witness for C1: an account whose two inflight entries both miss the
ancestor list falls back to the finalized value. -/
theorem claim1_witness :
    (∀ p ∈ [((1 : Slot), Account.mk 3), (2, Account.mk 4)], p.1 ∉ [(5 : Slot)]) ∧
    VersionedAccount.get_account ⟨some ⟨7⟩, [(1, ⟨3⟩), (2, ⟨4⟩)]⟩ [5] = some ⟨7⟩ :=
  ⟨by decide,
   (claim1_get_account_returns_latest_matching ⟨some ⟨7⟩, [(1, ⟨3⟩), (2, ⟨4⟩)]⟩ [5]).2.1
     (by decide)⟩

/-- C8: when the inflight queue is non-empty and its last entry's slot equals
`slot`, `set_account` replaces that entry's value in place (rest of the queue
and finalized value unchanged); otherwise it appends `(slot, value)` at the
tail. -/
theorem claim8_set_account_replace_or_append (va : VersionedAccount) (account : Account)
    (slot : Slot) :
    (∀ last, va.inflight_updates.getLast? = some last → last.1 = slot →
      va.set_account account slot =
        { finalized_acc := va.finalized_acc,
          inflight_updates := va.inflight_updates.dropLast ++ [(slot, account)] }) ∧
    (va.inflight_updates.getLast?.map Prod.fst ≠ some slot →
      va.set_account account slot =
        { finalized_acc := va.finalized_acc,
          inflight_updates := va.inflight_updates ++ [(slot, account)] }) := by
  constructor
  · intro last hlast heq
    simp [VersionedAccount.set_account, hlast, heq]
  · intro hne
    cases hlast : va.inflight_updates.getLast? with
    | none => simp [VersionedAccount.set_account, hlast]
    | some last =>
      have hq : ¬ last.1 = slot := by
        intro h
        exact hne (by rw [hlast]; simp [h])
      simp [VersionedAccount.set_account, hlast, hq]

/-- Witness for C8: overwriting the tail entry of a one-entry queue in place. -/
theorem claim8_witness :
    (([((2 : Slot), Account.mk 9)] : List (Slot × Account)).getLast? = some (2, ⟨9⟩)) ∧
    ((2 : Slot) = 2) ∧
    VersionedAccount.set_account ⟨none, [(2, ⟨9⟩)]⟩ ⟨5⟩ 2 = ⟨none, [(2, ⟨5⟩)]⟩ :=
  ⟨rfl, rfl, by
    have h := (claim8_set_account_replace_or_append ⟨none, [(2, ⟨9⟩)]⟩ ⟨5⟩ 2).1 (2, ⟨9⟩) rfl rfl
    simpa using h⟩

/-- C4: the guarded entry creation of `load_versioned_accounts` inserts a fresh
empty `VersionedAccount` when `id` is absent, leaves the whole store unchanged
when an entry exists (never clobbering it), and is idempotent. -/
theorem claim4_ensure_entry_fresh_and_idempotent (db : AccountsDb) (id : AccountId) :
    (db.lookupAccount id = none →
      (db.ensureEntry id).lookupAccount id = some emptyVersionedAccount) ∧
    ((db.lookupAccount id).isSome = true → db.ensureEntry id = db) ∧
    (∀ id' va, db.lookupAccount id' = some va →
      (db.ensureEntry id).lookupAccount id' = some va) ∧
    ((db.ensureEntry id).ensureEntry id = db.ensureEntry id) := by
  refine ⟨ensureEntry_lookup_absent db id, ensureEntry_of_present db id,
    fun id' va h => ensureEntry_preserves db id id' va h, ?_⟩
  have hs : ((db.ensureEntry id).lookupAccount id).isSome = true := by
    cases hl : db.lookupAccount id with
    | none => rw [ensureEntry_lookup_absent db id hl]; rfl
    | some va => rw [ensureEntry_preserves db id id va hl]; rfl
  exact ensureEntry_of_present _ id hs

/-- Witness for C4: creating account 1 in the genesis store. -/
theorem claim4_witness :
    (AccountsDb.genesis_database.lookupAccount 1 = none) ∧
    ((AccountsDb.genesis_database.ensureEntry 1).lookupAccount 1 =
      some emptyVersionedAccount) :=
  ⟨rfl, (claim4_ensure_entry_fresh_and_idempotent AccountsDb.genesis_database 1).1 rfl⟩

/-- C5: immediately after `load_account(ancestors)` returns a handle,
`get_account(ancestors)` returns the value of the inflight tail the handle
points at; and if the caller overwrites that value with `v` through the
handle, a subsequent `get_account(ancestors)` returns `v`. -/
theorem claim5_read_after_load (va : VersionedAccount) (ancestors : List Slot) (t : Slot)
    (hA : ancestors.getLast? = some t) (va' : VersionedAccount) (a : Account)
    (h : va.load_account ancestors = some (va', a)) :
    va'.get_account ancestors = some a ∧
    ∀ v, (va'.mutateTail v).get_account ancestors = some v := by
  obtain ⟨htail, _⟩ := load_account_tail va ancestors t hA va' a h
  have hmem : t ∈ ancestors := mem_of_getLast? hA
  refine ⟨get_account_of_tail va' ancestors t a htail hmem, ?_⟩
  intro v
  apply get_account_of_tail _ ancestors t v _ hmem
  simp only [VersionedAccount.mutateTail, htail]
  exact List.getLast?_concat _

/-- Witness for C5: loading a fresh fork copy of a finalized account and then
reading it back on the same fork. -/
theorem claim5_witness :
    (([(0 : Slot)] : List Slot).getLast? = some 0) ∧
    (VersionedAccount.load_account ⟨some ⟨7⟩, []⟩ [0] = some (⟨some ⟨7⟩, [(0, ⟨7⟩)]⟩, ⟨7⟩)) ∧
    VersionedAccount.get_account ⟨some ⟨7⟩, [(0, ⟨7⟩)]⟩ [0] = some ⟨7⟩ :=
  ⟨rfl, rfl,
   (claim5_read_after_load ⟨some ⟨7⟩, []⟩ [0] 0 rfl ⟨some ⟨7⟩, [(0, ⟨7⟩)]⟩ ⟨7⟩ rfl).1⟩

/-- C2: `load_account` follows the documented priority: (1) reuse the tail when
it is already at the tip slot, without modifying the account; (2) else clone
the most recent inflight entry whose slot is in `ancestors` and append
`(tip, clone)`; (3) else clone the finalized value and append; (4) else append
`(tip, default)` — in each case handing out the tail. -/
theorem claim2_load_account_priority (va : VersionedAccount) (ancestors : List Slot) (t : Slot)
    (hA : ancestors.getLast? = some t) :
    (∀ a, va.inflight_updates.getLast? = some (t, a) →
      va.load_account ancestors = some (va, a)) ∧
    (va.inflight_updates.getLast?.map Prod.fst ≠ some t →
      ∀ q, (va.inflight_updates.filter (fun p => ancestors.contains p.1)).getLast? = some q →
        va.load_account ancestors =
          some ({ finalized_acc := va.finalized_acc,
                  inflight_updates := va.inflight_updates ++ [(t, q.2)] }, q.2)) ∧
    (va.inflight_updates.getLast?.map Prod.fst ≠ some t →
      va.inflight_updates.filter (fun p => ancestors.contains p.1) = [] →
      ∀ f, va.finalized_acc = some f →
        va.load_account ancestors =
          some ({ finalized_acc := va.finalized_acc,
                  inflight_updates := va.inflight_updates ++ [(t, f)] }, f)) ∧
    (va.inflight_updates.getLast?.map Prod.fst ≠ some t →
      va.inflight_updates.filter (fun p => ancestors.contains p.1) = [] →
      va.finalized_acc = none →
      va.load_account ancestors =
        some ({ finalized_acc := none,
                inflight_updates := va.inflight_updates ++ [(t, defaultAccount)] },
          defaultAccount)) := by
  refine ⟨?_, ?_, ?_, ?_⟩
  · intro a hlast
    have hc : va.inflight_updates.getLast?.map Prod.fst = some t := by rw [hlast]; rfl
    simp only [VersionedAccount.load_account, hA, if_pos hc]
    simp only [VersionedAccount.backHandle, hlast]
  · intro hc q hq
    have hfind : va.inflight_updates.reverse.find? (fun p => ancestors.contains p.1) =
        some q := by
      rw [find?_reverse_eq_getLast?_filter]
      exact hq
    simp only [VersionedAccount.load_account, hA, if_neg hc, hfind]
    rw [backHandle_concat]
  · intro hc hfl f hfin
    have hfind : va.inflight_updates.reverse.find? (fun p => ancestors.contains p.1) =
        none := by
      rw [find?_reverse_eq_getLast?_filter, hfl]
      rfl
    simp only [VersionedAccount.load_account, hA, if_neg hc, hfind, hfin]
    rw [backHandle_concat]
  · intro hc hfl hfin
    have hfind : va.inflight_updates.reverse.find? (fun p => ancestors.contains p.1) =
        none := by
      rw [find?_reverse_eq_getLast?_filter, hfl]
      rfl
    simp only [VersionedAccount.load_account, hA, if_neg hc, hfind, hfin]
    rw [backHandle_concat]

/-- Witness for C2: loading an account that is absent everywhere appends a
default-valued entry at the tip. -/
theorem claim2_witness :
    (([(3 : Slot)] : List Slot).getLast? = some 3) ∧
    (Option.map Prod.fst (([] : List (Slot × Account)).getLast?) ≠ some (3 : Slot)) ∧
    VersionedAccount.load_account ⟨none, []⟩ [3] =
      some (⟨none, [(3, defaultAccount)]⟩, defaultAccount) :=
  ⟨rfl, by decide,
   (claim2_load_account_priority ⟨none, []⟩ [3] 3 rfl).2.2.2 (by decide) rfl rfl⟩

theorem find?_map_finalizeOne (l : List (AccountId × VersionedAccount)) (t : Slot)
    (slots : List Slot) (id : AccountId) :
    (l.map (fun p => (p.1, p.2.finalizeOne t slots))).find? (fun p => decide (p.1 = id)) =
      (l.find? (fun p => decide (p.1 = id))).map (fun p => (p.1, p.2.finalizeOne t slots)) := by
  induction l with
  | nil => rfl
  | cons x xs ih =>
    by_cases h : x.1 = id
    · rw [List.map_cons, List.find?_cons_of_pos _ (by simp [h]),
        List.find?_cons_of_pos _ (by simp [h])]
      rfl
    · rw [List.map_cons, List.find?_cons_of_neg _ (by simp [h]),
        List.find?_cons_of_neg _ (by simp [h])]
      exact ih

/-- `get_account` on a literal account record, in filtered form. -/
theorem get_account_mk (fin0 : Option Account) (l : List (Slot × Account))
    (ancestors : List Slot) :
    VersionedAccount.get_account ⟨fin0, l⟩ ancestors =
      match (l.filter (fun p => ancestors.contains p.1)).getLast? with
      | some p => some p.2
      | none => fin0 :=
  get_account_eq_filter ⟨fin0, l⟩ ancestors

/-- Effect of a non-stale `finalize` on `finalized_slot` and on each stored
account, under the strictly-increasing inflight invariant. -/
theorem finalize_lookup (db : AccountsDb) (ancestors : List Slot) (t : Slot)
    (hsort : ∀ p ∈ db.accounts, List.Pairwise (fun q r => q.1 < r.1) p.2.inflight_updates)
    (hA : ancestors.getLast? = some t)
    (htip : db.finalized_slot < t) :
    ∃ db', db.finalize ancestors = some db' ∧
      db'.finalized_slot = t ∧
      ∀ id va, db.lookupAccount id = some va →
        db'.lookupAccount id = some
          { finalized_acc :=
              match (va.inflight_updates.filter
                  (fun p => ancestors.contains p.1 && decide (p.1 ≤ t))).getLast? with
              | some q => some q.2
              | none => va.finalized_acc,
            inflight_updates := va.inflight_updates.filter (fun p => decide (t < p.1)) } := by
  have hfin : db.finalize ancestors =
      some { finalized_slot := t,
             accounts := db.accounts.map (fun p => (p.1, p.2.finalizeOne t ancestors)) } := by
    simp only [AccountsDb.finalize, hA]
    rw [if_neg (not_le.mpr htip)]
  refine ⟨_, hfin, rfl, ?_⟩
  intro id va hva
  unfold AccountsDb.lookupAccount at hva ⊢
  show ((db.accounts.map (fun p => (p.1, p.2.finalizeOne t ancestors))).find?
      (fun p => decide (p.1 = id))).map Prod.snd = _
  rw [find?_map_finalizeOne db.accounts t ancestors id]
  cases hfind : db.accounts.find? (fun p => decide (p.1 = id)) with
  | none =>
    rw [hfind] at hva
    simp at hva
  | some pr =>
    rw [hfind] at hva
    have hva2 : pr.2 = va := by simpa using hva
    have hsorted := hsort pr (List.mem_of_find?_eq_some hfind)
    rw [hva2] at hsorted
    simp only [Option.map_some']
    show some ((pr.1, pr.2.finalizeOne t ancestors).2) = _
    simp only
    rw [hva2]
    unfold VersionedAccount.finalizeOne
    rw [finalizeInflight_eq t ancestors va.inflight_updates va.finalized_acc hsorted]

/-- C3: after a non-stale `finalize(ancestors)` on a store whose inflight
queues have strictly increasing slots, `finalized_slot` equals the tip, each
account keeps exactly its former inflight entries with slot above the tip (in
order), and its finalized value becomes the value of the highest-slot former
entry whose slot is in `ancestors` and at most the tip, when one exists, and
is otherwise unchanged. -/
theorem claim3_finalize_spec (db : AccountsDb) (ancestors : List Slot) (t : Slot)
    (hsort : ∀ p ∈ db.accounts, List.Pairwise (fun q r => q.1 < r.1) p.2.inflight_updates)
    (hanc : List.Pairwise (fun a b => a < b) ancestors)
    (hA : ancestors.getLast? = some t)
    (htip : db.finalized_slot < t) :
    ∃ db', db.finalize ancestors = some db' ∧
      db'.finalized_slot = t ∧
      ∀ id va, db.lookupAccount id = some va →
        db'.lookupAccount id = some
          { finalized_acc :=
              match (va.inflight_updates.filter
                  (fun p => ancestors.contains p.1 && decide (p.1 ≤ t))).getLast? with
              | some q => some q.2
              | none => va.finalized_acc,
            inflight_updates := va.inflight_updates.filter (fun p => decide (t < p.1)) } :=
  finalize_lookup db ancestors t hsort hA htip

/-- Sample store for the finalize witnesses: one account with three inflight
entries at slots 1, 2, 3. -/
def sampleDb : AccountsDb :=
  ⟨0, [(5, ⟨none, [(1, ⟨10⟩), (2, ⟨20⟩), (3, ⟨30⟩)]⟩)]⟩

/-- Witness for C3: finalizing `[1, 3]` on `sampleDb`. -/
theorem claim3_witness :
    (∀ p ∈ sampleDb.accounts, List.Pairwise (fun q r => q.1 < r.1) p.2.inflight_updates) ∧
    List.Pairwise (fun a b => a < b) [(1 : Slot), 3] ∧
    (([(1 : Slot), 3] : List Slot).getLast? = some 3) ∧
    (sampleDb.finalized_slot < 3) ∧
    ∃ db', sampleDb.finalize [1, 3] = some db' ∧
      db'.finalized_slot = 3 ∧
      ∀ id va, sampleDb.lookupAccount id = some va →
        db'.lookupAccount id = some
          { finalized_acc :=
              match (va.inflight_updates.filter
                  (fun p => ([(1 : Slot), 3]).contains p.1 && decide (p.1 ≤ 3))).getLast? with
              | some q => some q.2
              | none => va.finalized_acc,
            inflight_updates := va.inflight_updates.filter (fun p => decide (3 < p.1)) } :=
  ⟨by decide, by decide, rfl, by decide,
   claim3_finalize_spec sampleDb [1, 3] 3 (by decide) (by decide) rfl (by decide)⟩

/-- C6: a `finalize` whose tip is at most `finalized_slot` leaves the store
unchanged, and `finalize` is idempotent: a second call with the same
`ancestors` is a no-op. -/
theorem claim6_finalize_stale_noop_and_idempotent (db : AccountsDb) (ancestors : List Slot)
    (t : Slot) (hA : ancestors.getLast? = some t) :
    (t ≤ db.finalized_slot → db.finalize ancestors = some db) ∧
    (db.finalize ancestors).bind (fun d => d.finalize ancestors) = db.finalize ancestors := by
  have hstale : ∀ d : AccountsDb, t ≤ d.finalized_slot → d.finalize ancestors = some d := by
    intro d hd
    simp only [AccountsDb.finalize, hA]
    rw [if_pos hd]
  refine ⟨hstale db, ?_⟩
  by_cases h : t ≤ db.finalized_slot
  · rw [hstale db h]
    show db.finalize ancestors = some db
    exact hstale db h
  · have h1 : db.finalize ancestors =
        some { finalized_slot := t,
               accounts := db.accounts.map (fun p => (p.1, p.2.finalizeOne t ancestors)) } := by
      simp only [AccountsDb.finalize, hA]
      rw [if_neg h]
    rw [h1]
    show AccountsDb.finalize
        { finalized_slot := t,
          accounts := db.accounts.map (fun p => (p.1, p.2.finalizeOne t ancestors)) } ancestors =
      some { finalized_slot := t,
             accounts := db.accounts.map (fun p => (p.1, p.2.finalizeOne t ancestors)) }
    exact hstale _ (Nat.le_refl t)

/-- Witness for C6: a stale finalize at tip 0 on the genesis store. -/
theorem claim6_witness :
    (([(0 : Slot)] : List Slot).getLast? = some 0) ∧
    ((0 : Slot) ≤ AccountsDb.genesis_database.finalized_slot) ∧
    AccountsDb.genesis_database.finalize [0] = some AccountsDb.genesis_database :=
  ⟨rfl, Nat.le_refl 0,
   (claim6_finalize_stale_noop_and_idempotent AccountsDb.genesis_database [0] 0 rfl).1
     (Nat.le_refl 0)⟩

/-- C7: for a non-stale `finalize(ancestors)` on a store with strictly
increasing inflight queues and strictly increasing `ancestors`, every stored
account reads the same value on `ancestors` after the call as before it. -/
theorem claim7_finalize_preserves_read (db : AccountsDb) (ancestors : List Slot) (t : Slot)
    (hsort : ∀ p ∈ db.accounts, List.Pairwise (fun q r => q.1 < r.1) p.2.inflight_updates)
    (hanc : List.Pairwise (fun a b => a < b) ancestors)
    (hA : ancestors.getLast? = some t)
    (htip : db.finalized_slot < t) :
    ∃ db', db.finalize ancestors = some db' ∧
      ∀ id va va', db.lookupAccount id = some va → db'.lookupAccount id = some va' →
        va'.get_account ancestors = va.get_account ancestors := by
  obtain ⟨db', h1, _, h3⟩ := finalize_lookup db ancestors t hsort hA htip
  refine ⟨db', h1, ?_⟩
  intro id va va' hva hva'
  have hdef := h3 id va hva
  rw [hva'] at hdef
  have hva'eq : va' = _ := Option.some.inj hdef
  subst hva'eq
  have hmax : ∀ s ∈ ancestors, s ≤ t := le_getLast_of_pairwise hanc hA
  have hnil : List.filter (fun p => ancestors.contains p.1)
      (List.filter (fun p => decide (t < p.1)) va.inflight_updates) = [] := by
    apply List.filter_eq_nil_iff.mpr
    intro p hp
    have hpl : t < p.1 := of_decide_eq_true (List.mem_filter.mp hp).2
    intro hcon
    exact absurd (hmax p.1 (contains_true_iff.mp hcon)) (not_le.mpr hpl)
  have hcong : List.filter (fun p => ancestors.contains p.1) va.inflight_updates =
      List.filter (fun p => ancestors.contains p.1 && decide (p.1 ≤ t))
        va.inflight_updates := by
    apply List.filter_congr
    intro p hp
    cases hc : ancestors.contains p.1 with
    | false => rfl
    | true =>
      have hle : p.1 ≤ t := hmax p.1 (contains_true_iff.mp hc)
      simp [hle]
  rw [get_account_mk, hnil, get_account_eq_filter, hcong]
  rfl

/-- Witness for C7: the account of `sampleDb` reads the same value on
`[1, 3]` before and after `finalize([1, 3])`. -/
theorem claim7_witness :
    (∀ p ∈ sampleDb.accounts, List.Pairwise (fun q r => q.1 < r.1) p.2.inflight_updates) ∧
    List.Pairwise (fun a b => a < b) [(1 : Slot), 3] ∧
    (([(1 : Slot), 3] : List Slot).getLast? = some 3) ∧
    (sampleDb.finalized_slot < 3) ∧
    ∃ db', sampleDb.finalize [1, 3] = some db' ∧
      ∀ id va va', sampleDb.lookupAccount id = some va → db'.lookupAccount id = some va' →
        va'.get_account [1, 3] = va.get_account [1, 3] :=
  ⟨by decide, by decide, rfl, by decide,
   claim7_finalize_preserves_read sampleDb [1, 3] 3 (by decide) (by decide) rfl (by decide)⟩

/-- C9: when `load_versioned_accounts` fails with the `Locked` error, the
entry creation of its first phase has already mutated the store: every
requested id that had no entry before the call now maps to a fresh empty
`VersionedAccount`. -/
theorem claim9_locked_error_keeps_inserts (db : AccountsDb) (locks : AccountId → LockState)
    (read_account_ids write_account_ids : List AccountId) (id : AccountId)
    (herr : (db.load_versioned_accounts locks read_account_ids write_account_ids).1 =
      Except.error LoadError.OneOrMoreAccountsLocked)
    (hmem : id ∈ read_account_ids ++ write_account_ids)
    (habs : db.lookupAccount id = none) :
    ((db.load_versioned_accounts locks read_account_ids write_account_ids).2).lookupAccount id =
      some emptyVersionedAccount := by
  show ((read_account_ids ++ write_account_ids).foldl
      (fun d i => d.ensureEntry i) db).lookupAccount id = some emptyVersionedAccount
  exact ensureFold_creates _ db id hmem habs

/-- Witness for C9: requesting a read of fresh account 1 while another caller
holds it exclusively fails with `Locked`, yet account 1 is left created. -/
theorem claim9_witness :
    ((AccountsDb.genesis_database.load_versioned_accounts
        (fun _ => LockState.exclusive) [1] []).1 =
      Except.error LoadError.OneOrMoreAccountsLocked) ∧
    ((1 : AccountId) ∈ [(1 : AccountId)] ++ ([] : List AccountId)) ∧
    (AccountsDb.genesis_database.lookupAccount 1 = none) ∧
    ((AccountsDb.genesis_database.load_versioned_accounts
        (fun _ => LockState.exclusive) [1] []).2).lookupAccount 1 =
      some emptyVersionedAccount :=
  ⟨rfl, by decide, rfl,
   claim9_locked_error_keeps_inserts AccountsDb.genesis_database
     (fun _ => LockState.exclusive) [1] [] 1 rfl (by decide) rfl⟩

/-- C10: `set_account` and `load_account` never change `finalized_acc`, and
`load_versioned_accounts` leaves every existing entry (hence its
`finalized_acc`) untouched; `get_account` reads through `&self` and cannot
mutate; among the store's operations only `finalize` (and the construction in
`genesis_database`) assigns `finalized_acc`. -/
theorem claim10_frame_finalized_acc :
    (∀ (va : VersionedAccount) (account : Account) (slot : Slot),
      (va.set_account account slot).finalized_acc = va.finalized_acc) ∧
    (∀ (va : VersionedAccount) (ancestors : List Slot) (va' : VersionedAccount) (a : Account),
      va.load_account ancestors = some (va', a) → va'.finalized_acc = va.finalized_acc) ∧
    (∀ (db : AccountsDb) (locks : AccountId → LockState)
      (read_account_ids write_account_ids : List AccountId) (id : AccountId)
      (va : VersionedAccount), db.lookupAccount id = some va →
      ((db.load_versioned_accounts locks read_account_ids write_account_ids).2).lookupAccount id
        = some va) := by
  refine ⟨?_, ?_, ?_⟩
  · intro va account slot
    cases hl : va.inflight_updates.getLast? with
    | none => simp [VersionedAccount.set_account, hl]
    | some last =>
      by_cases hq : last.1 = slot <;> simp [VersionedAccount.set_account, hl, hq]
  · intro va ancestors va' a h
    cases hA : ancestors.getLast? with
    | none =>
      rw [VersionedAccount.load_account, hA] at h
      cases h
    | some t => exact (load_account_tail va ancestors t hA va' a h).2
  · intro db locks read_account_ids write_account_ids id va h
    show ((read_account_ids ++ write_account_ids).foldl
        (fun d i => d.ensureEntry i) db).lookupAccount id = some va
    exact ensureFold_preserves _ db id va h

/-- Witness for C10: a concrete load keeps the finalized value intact. -/
theorem claim10_witness :
    (VersionedAccount.load_account ⟨some ⟨4⟩, []⟩ [2] = some (⟨some ⟨4⟩, [(2, ⟨4⟩)]⟩, ⟨4⟩)) ∧
    (⟨some ⟨4⟩, [(2, ⟨4⟩)]⟩ : VersionedAccount).finalized_acc =
      (⟨some ⟨4⟩, []⟩ : VersionedAccount).finalized_acc :=
  ⟨rfl, claim10_frame_finalized_acc.2.1 ⟨some ⟨4⟩, []⟩ [2] ⟨some ⟨4⟩, [(2, ⟨4⟩)]⟩ ⟨4⟩ rfl⟩

end Smolchain
